import Mathlib

/-!
Verification of the comment-stripping script: a shallow embedding of
scripts/strip_comments.py over lists of characters, together with proofs
of the specified properties of strip_html, strip_css, strip_js,
process_file and the main counting loop.
-/

namespace StripComments

/-! Named characters (by code point, to keep the embedding unambiguous). -/

def nl : Char := Char.ofNat 10

def cr : Char := Char.ofNat 13

def bsl : Char := Char.ofNat 92

def sq1 : Char := Char.ofNat 39

def dq1 : Char := Char.ofNat 34

def btk : Char := Char.ofNat 96

def slash : Char := Char.ofNat 47

def spc : Char := Char.ofNat 32

def slashStar : List Char := [slash, Char.ofNat 42]

def starSlash : List Char := [Char.ofNat 42, slash]

def slashSlash : List Char := [slash, slash]

def htmlOpen : List Char := "<!--".toList

def htmlClose : List Char := "-->".toList

def httpMark : List Char := "http:".toList

def httpsMark : List Char := "https:".toList

/-! Regex-substitution model.  Both re.sub patterns in the script have the
shape: literal opener, shortest run of arbitrary characters (DOTALL),
literal closer, replaced by the empty string, non-overlapping and
leftmost-first.  findRemove looks for the leftmost occurrence of the
closer and returns the remainder after it. -/

def findRemove (cls : List Char) : List Char → Option (List Char)
  | [] => none
  | x :: rest =>
    if cls.isPrefixOf (x :: rest) then some (List.drop cls.length (x :: rest))
    else findRemove cls rest

def stripDelimFuel (opn cls : List Char) : Nat → List Char → List Char
  | _, [] => []
  | 0, s => s
  | fuel + 1, x :: rest =>
    if opn.isPrefixOf (x :: rest) then
      match findRemove cls (List.drop opn.length (x :: rest)) with
      | some suf => stripDelimFuel opn cls fuel suf
      | none => x :: rest
    else x :: stripDelimFuel opn cls fuel rest

def stripDelim (opn cls s : List Char) : List Char :=
  stripDelimFuel opn cls s.length s

def strip_html (content : List Char) : List Char :=
  stripDelim htmlOpen htmlClose content

def strip_css (content : List Char) : List Char :=
  stripDelim slashStar starSlash content

/-! Python str.splitlines: line boundaries are LF, CR, CRLF, VT, FF,
FS, GS, RS, NEL, LINE SEPARATOR, PARAGRAPH SEPARATOR; a terminator at
the very end does not produce a trailing empty line. -/

def isLineBreak (c : Char) : Bool :=
  let n := c.toNat
  n = 10 || n = 13 || n = 11 || n = 12 || n = 28 || n = 29 || n = 30 ||
    n = 133 || n = 8232 || n = 8233

def splitlines : List Char → List (List Char)
  | [] => []
  | [c] => if isLineBreak c = true then [[]] else [[c]]
  | c :: c2 :: rest =>
    if isLineBreak c = true then
      if c = cr ∧ c2 = nl then [] :: splitlines rest
      else [] :: splitlines (c2 :: rest)
    else
      match splitlines (c2 :: rest) with
      | [] => [[c]]
      | l :: ls => (c :: l) :: ls

/-! Python str.rstrip with no argument removes trailing whitespace, and
str.isspace whitespace is the following set of code points. -/

def isSpaceChar (c : Char) : Bool :=
  let n := c.toNat
  (9 ≤ n && n ≤ 13) || (28 ≤ n && n ≤ 31) || n = 32 || n = 133 || n = 160 ||
    n = 5760 || (8192 ≤ n && n ≤ 8202) || n = 8232 || n = 8233 || n = 8239 ||
    n = 8287 || n = 12288

def rstrip (s : List Char) : List Char :=
  (s.reverse.dropWhile isSpaceChar).reverse

def endsWith (s suf : List Char) : Bool := suf.isSuffixOf s

/-! The per-line scanner of strip_js.  ScanSt is the loop state of the
while loop (the three string-context flags, the escape flag and the
accumulated result_chars); scanStep is the loop body at one cursor
position (ch is line[i], next? is line[i+1] when i+1 < n); Step.brk is
the break statement that discards the rest of the line. -/

structure ScanSt where
  in_sq : Bool
  in_dq : Bool
  in_bt : Bool
  escaped : Bool
  result_chars : List Char
deriving DecidableEq, Repr

inductive Step where
  | cont (st : ScanSt)
  | brk
deriving DecidableEq, Repr

def scanStep (st : ScanSt) (ch : Char) (next? : Option Char) : Step :=
  if ch = bsl ∧ st.escaped = false then
    Step.cont { st with escaped := true, result_chars := st.result_chars ++ [ch] }
  else if ch = sq1 ∧ st.escaped = false ∧ st.in_dq = false ∧ st.in_bt = false then
    Step.cont { st with in_sq := !st.in_sq, escaped := false,
                        result_chars := st.result_chars ++ [ch] }
  else if ch = dq1 ∧ st.escaped = false ∧ st.in_sq = false ∧ st.in_bt = false then
    Step.cont { st with in_dq := !st.in_dq, escaped := false,
                        result_chars := st.result_chars ++ [ch] }
  else if ch = btk ∧ st.escaped = false ∧ st.in_sq = false ∧ st.in_dq = false then
    Step.cont { st with in_bt := !st.in_bt, escaped := false,
                        result_chars := st.result_chars ++ [ch] }
  else if ch = slash ∧ next? = some slash ∧
      st.in_sq = false ∧ st.in_dq = false ∧ st.in_bt = false ∧
      endsWith (rstrip st.result_chars) httpMark = false ∧
      endsWith (rstrip st.result_chars) httpsMark = false then
    Step.brk
  else
    Step.cont { st with escaped := false, result_chars := st.result_chars ++ [ch] }

def scanLineAux : ScanSt → List Char → List Char
  | st, [] => st.result_chars
  | st, ch :: rest =>
    match scanStep st ch rest.head? with
    | Step.cont st2 => scanLineAux st2 rest
    | Step.brk => st.result_chars

def initSt : ScanSt :=
  { in_sq := false, in_dq := false, in_bt := false, escaped := false,
    result_chars := [] }

def scanLine (line : List Char) : List Char := scanLineAux initSt line

/-! Python single-newline join of the processed lines. -/

def joinWith (sep : List Char) : List (List Char) → List Char
  | [] => []
  | [l] => l
  | l :: l2 :: ls => l ++ sep ++ joinWith sep (l2 :: ls)

def strip_js (content : List Char) : List Char :=
  joinWith [nl] ((splitlines (stripDelim slashStar starSlash content)).map scanLine)

/-! process_file: reading the file either yields text or fails; on
success the stripper selected by the lower-cased extension runs and the
file is written back only when the output differs.  The first component
is the write action (the new contents, when a write happens), the second
is the returned boolean. -/

inductive ReadRes where
  | ok (text : List Char)
  | err
deriving DecidableEq

def strLower (s : String) : String := String.mk (s.toList.map Char.toLower)

def process_file (sfx : String) (r : ReadRes) : Option (List Char) × Bool :=
  match r with
  | ReadRes.err => (none, false)
  | ReadRes.ok text =>
    let s := strLower sfx
    if s = ".html" ∨ s = ".htm" then
      if strip_html text ≠ text then (some (strip_html text), true) else (none, false)
    else if s = ".css" then
      if strip_css text ≠ text then (some (strip_css text), true) else (none, false)
    else if s = ".js" then
      if strip_js text ≠ text then (some (strip_js text), true) else (none, false)
    else (none, false)

/-! The counting loop of main: each file found by rglob has an extension,
an is_file flag, and a read outcome; touched counts files whose lowered
extension is recognized, changed counts those where process_file
returned true. -/

structure FileEntry where
  sfx : String
  is_file : Bool
  content : ReadRes

def extsOK (s : String) : Bool :=
  s = ".html" || s = ".htm" || s = ".css" || s = ".js"

def mainLoop : Nat → Nat → List FileEntry → Nat × Nat
  | touched, changed, [] => (touched, changed)
  | touched, changed, f :: rest =>
    if f.is_file = true ∧ extsOK (strLower f.sfx) = true then
      mainLoop (touched + 1)
        (if (process_file f.sfx f.content).2 = true then changed + 1 else changed) rest
    else mainLoop touched changed rest

def mainCounts (files : List FileEntry) : Nat × Nat := mainLoop 0 0 files

/-! Instrumentation used only to state invariants of the scan: the list
of loop states visited (entry state at each cursor position, plus the
state at loop exit), and the state after one loop step. -/

def scanTraceAux : ScanSt → List Char → List ScanSt
  | st, [] => [st]
  | st, ch :: rest =>
    match scanStep st ch rest.head? with
    | Step.cont st2 => st :: scanTraceAux st2 rest
    | Step.brk => [st]

def stepSt (st : ScanSt) (ch : Char) (next? : Option Char) : ScanSt :=
  match scanStep st ch next? with
  | Step.cont st2 => st2
  | Step.brk => st

def mutexB (st : ScanSt) : Bool :=
  !(st.in_sq && st.in_dq) && !(st.in_sq && st.in_bt) && !(st.in_dq && st.in_bt)

/-! Concrete inputs used by the example-based claims. -/

def c1Input : List Char :=
  "let x = 1; // comment".toList ++ [nl] ++
  "let y = ".toList ++ [sq1] ++ "// not a comment".toList ++ [sq1] ++ ";".toList ++ [nl] ++
  "/* block".toList ++ [nl] ++ " comment */".toList ++ [nl] ++
  "let z = ".toList ++ [btk] ++ "template // also kept".toList ++ [btk] ++ ";".toList

def c1Expected : List Char :=
  "let x = 1; ".toList ++ [nl] ++
  "let y = ".toList ++ [sq1] ++ "// not a comment".toList ++ [sq1] ++ ";".toList ++ [nl] ++ [nl] ++
  "let z = ".toList ++ [btk] ++ "template // also kept".toList ++ [btk] ++ ";".toList

/-! Characterizations of one step of the line scanner. -/

theorem scanStep_result_chars (st : ScanSt) (ch : Char) (n : Option Char) (st2 : ScanSt)
    (h : scanStep st ch n = Step.cont st2) :
    st2.result_chars = st.result_chars ++ [ch] := by
  unfold scanStep at h
  split_ifs at h <;> (try cases h) <;> simp_all

theorem scanStep_brk_elim (st : ScanSt) (ch : Char) (n : Option Char)
    (h : scanStep st ch n = Step.brk) : ch = slash ∧ n = some slash := by
  unfold scanStep at h
  split_ifs at h with h1 h2 h3 h4 h5 <;> simp_all

theorem scanStep_mutex (st : ScanSt) (ch : Char) (n : Option Char) (st2 : ScanSt)
    (hm : mutexB st = true) (h : scanStep st ch n = Step.cont st2) :
    mutexB st2 = true := by
  unfold scanStep at h
  split_ifs at h with h1 h2 h3 h4 h5 <;> (try cases h) <;> simp_all [mutexB]

theorem scanStep_escaped (st : ScanSt) (ch : Char) (n : Option Char) (st2 : ScanSt)
    (h : scanStep st ch n = Step.cont st2) :
    st2.escaped = (decide (ch = bsl) && !st.escaped) := by
  unfold scanStep at h
  split_ifs at h with h1 h2 h3 h4 h5 <;> (try cases h) <;>
    (try (by_cases hb : ch = bsl)) <;>
    simp_all [eq_false (by decide : ¬ sq1 = bsl), eq_false (by decide : ¬ dq1 = bsl),
      eq_false (by decide : ¬ btk = bsl), eq_false (by decide : ¬ slash = bsl),
      eq_false (by decide : ¬ bsl = sq1), eq_false (by decide : ¬ bsl = dq1),
      eq_false (by decide : ¬ bsl = btk)]

theorem scanStep_slash (st : ScanSt) (n : Option Char) :
    scanStep st slash n =
      if n = some slash ∧ st.in_sq = false ∧ st.in_dq = false ∧ st.in_bt = false ∧
          endsWith (rstrip st.result_chars) httpMark = false ∧
          endsWith (rstrip st.result_chars) httpsMark = false
      then Step.brk
      else Step.cont { st with escaped := false,
                               result_chars := st.result_chars ++ [slash] } := by
  unfold scanStep
  simp only [eq_false (by decide : ¬ slash = bsl), eq_false (by decide : ¬ slash = sq1),
    eq_false (by decide : ¬ slash = dq1), eq_false (by decide : ¬ slash = btk),
    eq_self_iff_true, true_and, false_and, if_false]

/-- Claim C1: strip_js, applied to the four-line example containing a trailing line
comment, a single-quoted string holding a double slash, a two-line block
comment and a backtick template holding a double slash, removes the line
comment and the block comment and preserves both string-embedded occurrences,
yielding exactly the expected text. -/
theorem claim_C1 : strip_js c1Input = c1Expected := by decide

/-- Claim C3: when the scanner sits on two consecutive slashes outside any string
context it inspects the emitted output with trailing whitespace removed; if
that output ends in http: or https: the slash is copied and the scan
continues, otherwise the slash and the whole remainder of the line are
discarded; consequently the double slash of the unquoted URL line survives
strip_js unchanged. -/
theorem claim_C3 :
    (∀ st rest, st.in_sq = false → st.in_dq = false → st.in_bt = false →
      (endsWith (rstrip st.result_chars) httpMark = true ∨
        endsWith (rstrip st.result_chars) httpsMark = true) →
      scanLineAux st (slash :: slash :: rest) =
        scanLineAux { st with escaped := false,
                              result_chars := st.result_chars ++ [slash] } (slash :: rest))
    ∧ (∀ st rest, st.in_sq = false → st.in_dq = false → st.in_bt = false →
      endsWith (rstrip st.result_chars) httpMark = false →
      endsWith (rstrip st.result_chars) httpsMark = false →
      scanLineAux st (slash :: slash :: rest) = st.result_chars)
    ∧ strip_js ("let url = http://example.com".toList) =
        "let url = http://example.com".toList := by
  refine ⟨?_, ?_, by decide⟩
  · intro st rest h1 h2 h3 h4
    rw [scanLineAux, scanStep_slash]
    have : ¬ ((slash :: rest).head? = some slash ∧ st.in_sq = false ∧ st.in_dq = false ∧
        st.in_bt = false ∧ endsWith (rstrip st.result_chars) httpMark = false ∧
        endsWith (rstrip st.result_chars) httpsMark = false) := by
      rcases h4 with h4 | h4 <;> simp [h4]
    rw [if_neg this]
  · intro st rest h1 h2 h3 h4 h5
    rw [scanLineAux, scanStep_slash]
    rw [if_pos ⟨by simp, h1, h2, h3, h4, h5⟩]

/-- claim_C3 has hypotheses; this instantiates both general parts at concrete
states and lines. -/
theorem claim_C3_witness :
    scanLineAux { initSt with result_chars := "x = http:".toList }
        (slash :: slash :: ['a']) =
      scanLineAux { initSt with escaped := false,
                                result_chars := "x = http:".toList ++ [slash] }
        (slash :: ['a'])
    ∧ scanLineAux { initSt with result_chars := "x = 1; ".toList }
        (slash :: slash :: ['a']) = "x = 1; ".toList := by
  exact ⟨claim_C3.1 _ _ (by decide) (by decide) (by decide) (Or.inl (by decide)),
    claim_C3.2.1 _ _ (by decide) (by decide) (by decide) (by decide) (by decide)⟩

/-- Claim C9: process_file writes back only when the selected stripper changed the
text: when the stripped text equals the text read, the write action is none
and the returned flag is false, for each recognized extension. -/
theorem claim_C9 (t : List Char) :
    (strip_html t = t →
      process_file ".html" (ReadRes.ok t) = (none, false) ∧
      process_file ".htm" (ReadRes.ok t) = (none, false))
    ∧ (strip_css t = t → process_file ".css" (ReadRes.ok t) = (none, false))
    ∧ (strip_js t = t → process_file ".js" (ReadRes.ok t) = (none, false)) := by
  refine ⟨fun h => ⟨?_, ?_⟩, fun h => ?_, fun h => ?_⟩ <;>
    simp [process_file, strLower, h]

/-- claim_C9 has hypotheses; this instantiates it at a one-character text that
no stripper changes. -/
theorem claim_C9_witness :
    process_file ".js" (ReadRes.ok ['a']) = (none, false) ∧
    process_file ".css" (ReadRes.ok ['a']) = (none, false) := by
  exact ⟨(claim_C9 ['a']).2.2 (by decide), (claim_C9 ['a']).2.1 (by decide)⟩

/-! Invariants of the scan state. -/

theorem scanTrace_all_mutex (cs : List Char) :
    ∀ st, mutexB st = true → ((scanTraceAux st cs).all mutexB) = true := by
  induction cs with
  | nil => intro st h; simp [scanTraceAux, h]
  | cons ch rest ih =>
    intro st h
    cases hstep : scanStep st ch rest.head? with
    | cont st2 =>
      rw [scanTraceAux, hstep]
      simp only [List.all_cons, h, Bool.true_and]
      exact ih st2 (scanStep_mutex st ch rest.head? st2 h hstep)
    | brk =>
      rw [scanTraceAux, hstep]
      simp [h]

theorem stepSt_keep_sq (st : ScanSt) (ch : Char) (n : Option Char)
    (h : (st.in_dq || st.in_bt) = true) : (stepSt st ch n).in_sq = st.in_sq := by
  unfold stepSt scanStep
  split_ifs <;> simp_all

theorem stepSt_keep_dq (st : ScanSt) (ch : Char) (n : Option Char)
    (h : (st.in_sq || st.in_bt) = true) : (stepSt st ch n).in_dq = st.in_dq := by
  unfold stepSt scanStep
  split_ifs <;> simp_all

theorem stepSt_keep_bt (st : ScanSt) (ch : Char) (n : Option Char)
    (h : (st.in_sq || st.in_dq) = true) : (stepSt st ch n).in_bt = st.in_bt := by
  unfold stepSt scanStep
  split_ifs <;> simp_all

theorem stepSt_toggle_sq (st : ScanSt) (n : Option Char)
    (he : st.escaped = false) (hd : st.in_dq = false) (hb : st.in_bt = false) :
    (stepSt st sq1 n).in_sq = !st.in_sq := by
  unfold stepSt scanStep
  split_ifs <;> simp_all [eq_false (by decide : ¬ sq1 = bsl)]

theorem stepSt_toggle_dq (st : ScanSt) (n : Option Char)
    (he : st.escaped = false) (hs : st.in_sq = false) (hb : st.in_bt = false) :
    (stepSt st dq1 n).in_dq = !st.in_dq := by
  unfold stepSt scanStep
  split_ifs <;> simp_all [eq_false (by decide : ¬ dq1 = bsl),
    eq_false (by decide : ¬ dq1 = sq1)]

theorem stepSt_toggle_bt (st : ScanSt) (n : Option Char)
    (he : st.escaped = false) (hs : st.in_sq = false) (hd : st.in_dq = false) :
    (stepSt st btk n).in_bt = !st.in_bt := by
  unfold stepSt scanStep
  split_ifs <;> simp_all [eq_false (by decide : ¬ btk = bsl),
    eq_false (by decide : ¬ btk = sq1), eq_false (by decide : ¬ btk = dq1)]

/-- Claim C2: during every line scan at most one of the three string-context
flags is true at every cursor position (the scan starts with all flags false
and every visited state keeps the mutual exclusion); moreover whenever another
string context is active a character never changes the other two flags, and an
unescaped quote or backtick does toggle its own flag when both other flags are
false. -/
theorem claim_C2 :
    (∀ line, ((scanTraceAux initSt line).all mutexB) = true)
    ∧ (∀ st ch n, (st.in_dq || st.in_bt) = true → (stepSt st ch n).in_sq = st.in_sq)
    ∧ (∀ st ch n, (st.in_sq || st.in_bt) = true → (stepSt st ch n).in_dq = st.in_dq)
    ∧ (∀ st ch n, (st.in_sq || st.in_dq) = true → (stepSt st ch n).in_bt = st.in_bt)
    ∧ (∀ st n, st.escaped = false → st.in_dq = false → st.in_bt = false →
        (stepSt st sq1 n).in_sq = !st.in_sq)
    ∧ (∀ st n, st.escaped = false → st.in_sq = false → st.in_bt = false →
        (stepSt st dq1 n).in_dq = !st.in_dq)
    ∧ (∀ st n, st.escaped = false → st.in_sq = false → st.in_dq = false →
        (stepSt st btk n).in_bt = !st.in_bt) :=
  ⟨fun line => scanTrace_all_mutex line initSt (by decide),
    stepSt_keep_sq, stepSt_keep_dq, stepSt_keep_bt,
    stepSt_toggle_sq, stepSt_toggle_dq, stepSt_toggle_bt⟩

/-- claim_C2 has hypotheses; this instantiates every part at concrete states. -/
theorem claim_C2_witness :
    ((scanTraceAux initSt ['a']).all mutexB) = true
    ∧ (stepSt { initSt with in_dq := true } sq1 none).in_sq =
        ({ initSt with in_dq := true } : ScanSt).in_sq
    ∧ (stepSt { initSt with in_bt := true } dq1 none).in_dq =
        ({ initSt with in_bt := true } : ScanSt).in_dq
    ∧ (stepSt { initSt with in_sq := true } btk none).in_bt =
        ({ initSt with in_sq := true } : ScanSt).in_bt
    ∧ (stepSt initSt sq1 none).in_sq = !initSt.in_sq
    ∧ (stepSt initSt dq1 none).in_dq = !initSt.in_dq
    ∧ (stepSt initSt btk none).in_bt = !initSt.in_bt :=
  ⟨claim_C2.1 ['a'],
    claim_C2.2.1 _ sq1 none (by decide),
    claim_C2.2.2.1 _ dq1 none (by decide),
    claim_C2.2.2.2.1 _ btk none (by decide),
    claim_C2.2.2.2.2.1 initSt none (by decide) (by decide) (by decide),
    claim_C2.2.2.2.2.2.1 initSt none (by decide) (by decide) (by decide),
    claim_C2.2.2.2.2.2.2 initSt none (by decide) (by decide) (by decide)⟩

/-- Claim C7: in a continuing scan step the escaped flag of the new state is
true exactly when the consumed character is an unescaped backslash, so it is
cleared after the following character; consequently a quote preceded by one
backslash does not open a string context (and the line comment after it is
stripped) while a quote preceded by two backslashes does open one (and the
double slash inside is kept). -/
theorem claim_C7 :
    (∀ st ch n st2, scanStep st ch n = Step.cont st2 →
      st2.escaped = (decide (ch = bsl) && !st.escaped))
    ∧ scanLine ([bsl, sq1, spc, slash, slash, 'x']) = [bsl, sq1, spc]
    ∧ scanLine ([bsl, bsl, sq1, spc, slash, slash, 'x', sq1]) =
        [bsl, bsl, sq1, spc, slash, slash, 'x', sq1] :=
  ⟨scanStep_escaped, by decide, by decide⟩

/-- claim_C7 has a hypothesis; this instantiates the general part at a
backslash step from the initial state. -/
theorem claim_C7_witness :
    ({ initSt with escaped := true, result_chars := [bsl] } : ScanSt).escaped =
      (decide (bsl = bsl) && !initSt.escaped) :=
  claim_C7.1 initSt bsl none _ (by decide)

/-! Identity of the strippers on marker-free input. -/

theorem stripDelimFuel_no_open (opn cls : List Char) :
    ∀ fuel s, ¬ (opn <:+: s) → stripDelimFuel opn cls fuel s = s := by
  intro fuel
  induction fuel with
  | zero => intro s h; cases s <;> rfl
  | succ fuel ih =>
    intro s h
    cases s with
    | nil => rfl
    | cons x rest =>
      have hp : ¬ (opn.isPrefixOf (x :: rest) = true) := by
        intro hp
        exact h (List.IsPrefix.isInfix ( List.isPrefixOf_iff_prefix.mp hp))
      rw [stripDelimFuel, if_neg hp, ih rest (fun hi => h (List.infix_cons hi))]

theorem stripDelim_no_open (opn cls s : List Char) (h : ¬ (opn <:+: s)) :
    stripDelim opn cls s = s :=
  stripDelimFuel_no_open opn cls s.length s h

theorem scanLineAux_no_marker :
    ∀ cs st, ¬ (slashSlash <:+: cs) → scanLineAux st cs = st.result_chars ++ cs := by
  intro cs
  induction cs with
  | nil => intro st h; simp [scanLineAux]
  | cons ch rest ih =>
    intro st h
    cases hstep : scanStep st ch rest.head? with
    | cont st2 =>
      rw [scanLineAux, hstep]
      show scanLineAux st2 rest = st.result_chars ++ ch :: rest
      rw [ih st2 (fun hi => h (List.infix_cons hi)),
        scanStep_result_chars st ch rest.head? st2 hstep]
      simp
    | brk =>
      exfalso
      rcases scanStep_brk_elim st ch rest.head? hstep with ⟨hc, hn⟩
      cases rest with
      | nil => simp at hn
      | cons c2 r2 =>
        simp at hn
        apply h
        rw [hc, hn]
        exact List.IsPrefix.isInfix ⟨r2, by simp [slashSlash]⟩

theorem scanLine_no_marker (l : List Char) (h : ¬ (slashSlash <:+: l)) :
    scanLine l = l := by
  rw [scanLine, scanLineAux_no_marker l initSt h]
  simp [initSt]

/-! Structure of splitlines output. -/

theorem splitlines_ne_nil (s : List Char) (hs : s ≠ []) : splitlines s ≠ [] := by
  cases s with
  | nil => exact absurd rfl hs
  | cons c rest =>
    cases rest with
    | nil =>
      rw [splitlines]
      split_ifs <;> simp
    | cons c2 r2 =>
      rw [splitlines]
      split_ifs <;> (try simp) <;> cases splitlines (c2 :: r2) <;> simp

theorem splitlines_head_prefix :
    ∀ s l ls, splitlines s = l :: ls → l <+: s := by
  intro s
  induction s using splitlines.induct with
  | case1 => intro l ls h; simp [splitlines] at h
  | case2 c hc =>
    intro l ls h
    rw [splitlines, if_pos hc] at h
    cases h
    exact List.nil_prefix
  | case3 c hc =>
    intro l ls h
    rw [splitlines, if_neg hc] at h
    cases h
    exact List.prefix_rfl
  | case4 c c2 rest hc hcr ih =>
    intro l ls h
    rw [splitlines, if_pos hc, if_pos hcr] at h
    cases h
    exact List.nil_prefix
  | case5 c c2 rest hc hcr ih =>
    intro l ls h
    rw [splitlines, if_pos hc, if_neg hcr] at h
    cases h
    exact List.nil_prefix
  | case6 c c2 rest hc hnil ih =>
    intro l ls h
    rw [splitlines, if_neg hc, hnil] at h
    cases h
    exact ⟨c2 :: rest, rfl⟩
  | case7 c c2 rest hc l0 ls0 heq ih =>
    intro l ls h
    rw [splitlines, if_neg hc, heq] at h
    cases h
    rcases ih l0 ls0 heq with ⟨t, ht⟩
    exact ⟨t, by rw [List.cons_append, ht]⟩

theorem splitlines_mem_within :
    ∀ s, ∀ l ∈ splitlines s, l <:+: s := by
  intro s
  induction s using splitlines.induct with
  | case1 => intro l h; simp [splitlines] at h
  | case2 c hc =>
    intro l h
    rw [splitlines, if_pos hc] at h
    simp at h
    simp [h]
  | case3 c hc =>
    intro l h
    rw [splitlines, if_neg hc] at h
    simp at h
    simp [h]
  | case4 c c2 rest hc hcr ih =>
    intro l h
    rw [splitlines, if_pos hc, if_pos hcr] at h
    rcases List.mem_cons.mp h with h | h
    · simp [h]
    · exact List.infix_cons (List.infix_cons (ih l h))
  | case5 c c2 rest hc hcr ih =>
    intro l h
    rw [splitlines, if_pos hc, if_neg hcr] at h
    rcases List.mem_cons.mp h with h | h
    · simp [h]
    · exact List.infix_cons (ih l h)
  | case6 c c2 rest hc hnil ih =>
    intro l h
    rw [splitlines, if_neg hc, hnil] at h
    simp at h
    rw [h]
    exact List.IsPrefix.isInfix ⟨c2 :: rest, rfl⟩
  | case7 c c2 rest hc l0 ls0 heq ih =>
    intro l h
    rw [splitlines, if_neg hc, heq] at h
    rcases List.mem_cons.mp h with h | h
    · rw [h]
      rcases splitlines_head_prefix (c2 :: rest) l0 ls0 heq with ⟨t, ht⟩
      exact List.IsPrefix.isInfix ⟨t, by rw [List.cons_append, ht]⟩
    · exact List.infix_cons (ih l (heq ▸ List.mem_cons_of_mem l0 h))

theorem map_scanLine_id (ls : List (List Char))
    (h : ∀ l ∈ ls, ¬ (slashSlash <:+: l)) : ls.map scanLine = ls := by
  induction ls with
  | nil => rfl
  | cons l ls ih =>
    rw [List.map_cons, scanLine_no_marker l (h l (List.mem_cons_self l ls)),
      ih (fun x hx => h x (List.mem_cons_of_mem l hx))]

theorem strip_js_no_marker (t : List Char)
    (h1 : ¬ (slashStar <:+: t)) (h2 : ¬ (slashSlash <:+: t))
    (h3 : joinWith [nl] (splitlines t) = t) : strip_js t = t := by
  rw [strip_js, stripDelim_no_open _ _ _ h1]
  rw [map_scanLine_id (splitlines t)
    (fun l hl hi => h2 ( List.IsInfix.trans hi (splitlines_mem_within t l hl))), h3]

/-- Claim C4 counterexample: none of the three strippers is idempotent;
removing a comment can splice the surrounding text into a fresh comment
marker that a second pass removes. -/
theorem claim_C4_counterexample :
    strip_css (strip_css ("//* x */* y */".toList)) ≠
      strip_css ("//* x */* y */".toList)
    ∧ strip_js (strip_js ("//* x */* y */".toList)) ≠
      strip_js ("//* x */* y */".toList)
    ∧ strip_html (strip_html ("<!<!-- x -->-- y -->".toList)) ≠
      strip_html ("<!<!-- x -->-- y -->".toList) :=
  ⟨by decide, by decide, by decide⟩

/-- Claim C4 amended: a stripper is idempotent on every input whose first-pass
output is free of the corresponding comment opener; for strip_js the output
must additionally be free of double slashes and be restored by the
splitlines and newline-join round trip. -/
theorem claim_C4_amended :
    (∀ t, ¬ (htmlOpen <:+: strip_html t) →
      strip_html (strip_html t) = strip_html t)
    ∧ (∀ t, ¬ (slashStar <:+: strip_css t) →
      strip_css (strip_css t) = strip_css t)
    ∧ (∀ t, ¬ (slashStar <:+: strip_js t) → ¬ (slashSlash <:+: strip_js t) →
      joinWith [nl] (splitlines (strip_js t)) = strip_js t →
      strip_js (strip_js t) = strip_js t) :=
  ⟨fun _ h => stripDelim_no_open _ _ _ h, fun _ h => stripDelim_no_open _ _ _ h,
    fun _ h1 h2 h3 => strip_js_no_marker _ h1 h2 h3⟩

/-- claim_C4_amended has hypotheses; this instantiates all three parts at a
one-character text. -/
theorem claim_C4_amended_witness :
    strip_html (strip_html ['a']) = strip_html ['a']
    ∧ strip_css (strip_css ['a']) = strip_css ['a']
    ∧ strip_js (strip_js ['a']) = strip_js ['a'] :=
  ⟨claim_C4_amended.1 ['a'] (by decide), claim_C4_amended.2.1 ['a'] (by decide),
    claim_C4_amended.2.2 ['a'] (by decide) (by decide) (by decide)⟩

/-- Claim C5 counterexample: a two-character text consisting of one letter and
a terminating newline contains none of the three comment markers, yet strip_js
drops the trailing newline, so the text is changed and a .js file holding it
is reported as modified. -/
theorem claim_C5_counterexample :
    ¬ (htmlOpen <:+: ['a', nl]) ∧ ¬ (slashStar <:+: ['a', nl])
    ∧ ¬ (slashSlash <:+: ['a', nl])
    ∧ strip_js (['a', nl]) ≠ ['a', nl]
    ∧ (process_file ".js" (ReadRes.ok (['a', nl]))).2 = true :=
  ⟨by decide, by decide, by decide, by decide, by decide⟩

/-- Claim C5 amended: on marker-free input strip_html and strip_css are the
identity and .html, .htm and .css files are not reported modified; strip_js
is the identity only when the input is additionally restored by the
splitlines and newline-join round trip (no trailing line terminator, no
carriage returns), in which case a .js file is not reported modified
either. -/
theorem claim_C5_amended (t : List Char) (hh : ¬ (htmlOpen <:+: t))
    (hb : ¬ (slashStar <:+: t)) (hl : ¬ (slashSlash <:+: t)) :
    strip_html t = t ∧ strip_css t = t
    ∧ process_file ".html" (ReadRes.ok t) = (none, false)
    ∧ process_file ".htm" (ReadRes.ok t) = (none, false)
    ∧ process_file ".css" (ReadRes.ok t) = (none, false)
    ∧ (joinWith [nl] (splitlines t) = t →
        strip_js t = t ∧ process_file ".js" (ReadRes.ok t) = (none, false)) := by
  have h1 : strip_html t = t := stripDelim_no_open _ _ _ hh
  have h2 : strip_css t = t := stripDelim_no_open _ _ _ hb
  refine ⟨h1, h2, ?_, ?_, ?_, fun hj => ?_⟩
  · simp [process_file, strLower, h1]
  · simp [process_file, strLower, h1]
  · simp [process_file, strLower, h2]
  · have h3 : strip_js t = t := strip_js_no_marker t hb hl hj
    exact ⟨h3, by simp [process_file, strLower, h3]⟩

/-- claim_C5_amended has hypotheses; this instantiates it at a one-character
text. -/
theorem claim_C5_amended_witness :
    strip_html ['a'] = ['a'] ∧ strip_css ['a'] = ['a']
    ∧ process_file ".html" (ReadRes.ok ['a']) = (none, false)
    ∧ process_file ".htm" (ReadRes.ok ['a']) = (none, false)
    ∧ process_file ".css" (ReadRes.ok ['a']) = (none, false)
    ∧ (joinWith [nl] (splitlines ['a']) = ['a'] →
        strip_js ['a'] = ['a'] ∧ process_file ".js" (ReadRes.ok ['a']) = (none, false)) :=
  claim_C5_amended ['a'] (by decide) (by decide) (by decide)

/-! The counting loop of main. -/

def countTouched : List FileEntry → Nat
  | [] => 0
  | f :: rest =>
    (if f.is_file = true ∧ extsOK (strLower f.sfx) = true then 1 else 0) +
      countTouched rest

def countChanged : List FileEntry → Nat
  | [] => 0
  | f :: rest =>
    (if f.is_file = true ∧ extsOK (strLower f.sfx) = true ∧
        (process_file f.sfx f.content).2 = true then 1 else 0) +
      countChanged rest

theorem mainLoop_eq :
    ∀ (files : List FileEntry) (touched changed : Nat),
      mainLoop touched changed files =
        (touched + countTouched files, changed + countChanged files) := by
  intro files
  induction files with
  | nil => intro t c; simp [mainLoop, countTouched, countChanged]
  | cons f rest ih =>
    intro t c
    by_cases h1 : f.is_file = true ∧ extsOK (strLower f.sfx) = true
    · rw [mainLoop, if_pos h1, ih, countTouched, countChanged, if_pos h1]
      by_cases h2 : (process_file f.sfx f.content).2 = true
      · rw [if_pos h2, if_pos ⟨h1.1, h1.2, h2⟩]
        simp only [Prod.mk.injEq]
        constructor <;> omega
      · rw [if_neg h2, if_neg (fun hx => h2 hx.2.2)]
        simp only [Prod.mk.injEq]
        constructor <;> omega
    · rw [mainLoop, if_neg h1, ih, countTouched, countChanged, if_neg h1,
        if_neg (fun hx => h1 ⟨hx.1, hx.2.1⟩)]
      simp

/-- Claim C6 counterexample: a directory containing one .js file whose read
fails still increments the touched count (main counts the file by extension
before attempting to read it), so the touched count is 1, not 0. -/
theorem claim_C6_counterexample :
    mainCounts [⟨".js", true, ReadRes.err⟩] = (1, 0) ∧
    (mainCounts [⟨".js", true, ReadRes.err⟩]).1 ≠ 0 :=
  ⟨by decide, by decide⟩

/-- Claim C6 amended: a file whose extension is recognized but whose read
fails is skipped without effect on the file system (process_file performs no
write and returns false), increments the touched count but not the modified
count, and processing continues with the remaining files. -/
theorem claim_C6_amended (rest : List FileEntry) :
    mainCounts (⟨".js", true, ReadRes.err⟩ :: rest) =
      ((mainCounts rest).1 + 1, (mainCounts rest).2)
    ∧ process_file ".js" ReadRes.err = (none, false) := by
  have hr : mainCounts rest = (countTouched rest, countChanged rest) := by
    rw [mainCounts, mainLoop_eq]
    simp
  constructor
  · rw [mainCounts, mainLoop_eq, hr, countTouched, countChanged,
      if_pos (by decide), if_neg (by decide)]
    simp [Nat.add_comm]
  · rfl

/-! Characters of the output of strip_js. -/

theorem splitlines_no_linebreak :
    ∀ s, ∀ l ∈ splitlines s, ∀ c2 ∈ l, isLineBreak c2 = false := by
  intro s
  induction s using splitlines.induct with
  | case1 => intro l h; simp [splitlines] at h
  | case2 c hc =>
    intro l h
    rw [splitlines, if_pos hc] at h
    simp at h
    simp [h]
  | case3 c hc =>
    intro l h
    rw [splitlines, if_neg hc] at h
    simp at h
    subst h
    intro c2 h2
    simp at h2
    subst h2
    simpa using hc
  | case4 c c2 rest hc hcr ih =>
    intro l h
    rw [splitlines, if_pos hc, if_pos hcr] at h
    rcases List.mem_cons.mp h with h | h
    · simp [h]
    · exact ih l h
  | case5 c c2 rest hc hcr ih =>
    intro l h
    rw [splitlines, if_pos hc, if_neg hcr] at h
    rcases List.mem_cons.mp h with h | h
    · simp [h]
    · exact ih l h
  | case6 c c2 rest hc hnil ih =>
    intro l h
    rw [splitlines, if_neg hc, hnil] at h
    simp at h
    subst h
    intro c3 h3
    simp at h3
    subst h3
    simpa using hc
  | case7 c c2 rest hc l0 ls0 heq ih =>
    intro l h
    rw [splitlines, if_neg hc, heq] at h
    rcases List.mem_cons.mp h with h | h
    · subst h
      intro c3 h3
      rcases List.mem_cons.mp h3 with h3 | h3
      · subst h3
        simpa using hc
      · exact ih l0 (heq ▸ List.mem_cons_self l0 ls0) c3 h3
    · exact ih l (heq ▸ List.mem_cons_of_mem l0 h)

theorem scanLineAux_mem :
    ∀ cs st c, c ∈ scanLineAux st cs → c ∈ st.result_chars ∨ c ∈ cs := by
  intro cs
  induction cs with
  | nil =>
    intro st c h
    rw [scanLineAux] at h
    exact Or.inl h
  | cons ch rest ih =>
    intro st c h
    cases hstep : scanStep st ch rest.head? with
    | cont st2 =>
      rw [scanLineAux, hstep] at h
      rcases ih st2 c h with h2 | h2
      · rw [scanStep_result_chars st ch _ st2 hstep] at h2
        rcases List.mem_append.mp h2 with h3 | h3
        · exact Or.inl h3
        · simp at h3
          simp [h3]
      · exact Or.inr (List.mem_cons_of_mem ch h2)
    | brk =>
      rw [scanLineAux, hstep] at h
      exact Or.inl h

theorem joinWith_mem (sep : List Char) :
    ∀ ls c, c ∈ joinWith sep ls → c ∈ sep ∨ ∃ l, l ∈ ls ∧ c ∈ l := by
  intro ls
  induction ls with
  | nil => intro c h; simp [joinWith] at h
  | cons l ls ih =>
    intro c h
    cases ls with
    | nil =>
      rw [joinWith] at h
      exact Or.inr ⟨l, List.mem_cons_self l [], h⟩
    | cons l2 ls2 =>
      rw [joinWith] at h
      rcases List.mem_append.mp h with h2 | h2
      · rcases List.mem_append.mp h2 with h3 | h3
        · exact Or.inr ⟨l, List.mem_cons_self l (l2 :: ls2), h3⟩
        · exact Or.inl h3
      · rcases ih c h2 with h4 | ⟨l3, hl3, hc3⟩
        · exact Or.inl h4
        · exact Or.inr ⟨l3, List.mem_cons_of_mem l hl3, hc3⟩

/-! Round trip of splitlines over a carriage-return and newline join. -/

theorem splitlines_single :
    ∀ l : List Char, (∀ c ∈ l, isLineBreak c = false) → l ≠ [] →
      splitlines l = [l] := by
  intro l
  induction l with
  | nil => intro h hne; exact absurd rfl hne
  | cons c rest ih =>
    intro h hne
    have hc : ¬ (isLineBreak c = true) := by
      rw [h c (List.mem_cons_self c rest)]
      simp
    cases rest with
    | nil => rw [splitlines, if_neg hc]
    | cons c2 r2 =>
      rw [splitlines, if_neg hc,
        ih (fun x hx => h x (List.mem_cons_of_mem c hx)) (by simp)]

theorem splitlines_append_crlf :
    ∀ (l rest : List Char), (∀ c ∈ l, isLineBreak c = false) →
      splitlines (l ++ cr :: nl :: rest) = l :: splitlines rest := by
  intro l
  induction l with
  | nil =>
    intro rest h
    rw [List.nil_append, splitlines, if_pos (by decide), if_pos ⟨rfl, rfl⟩]
  | cons c l0 ih =>
    intro rest h
    have hc : ¬ (isLineBreak c = true) := by
      rw [h c (List.mem_cons_self c l0)]
      simp
    cases l0 with
    | nil =>
      have ih2 := ih rest (by intro x hx; cases hx)
      rw [List.nil_append] at ih2
      rw [List.cons_append, List.nil_append, splitlines, if_neg hc, ih2]
    | cons d l1 =>
      have ih2 := ih rest (fun x hx => h x (List.mem_cons_of_mem c hx))
      rw [List.cons_append] at ih2
      rw [List.cons_append, List.cons_append, splitlines, if_neg hc, ih2]

theorem splitlines_joinWith_crlf :
    ∀ ls : List (List Char), (∀ l ∈ ls, ∀ c ∈ l, isLineBreak c = false) →
      ls.getLast? ≠ some [] →
      splitlines (joinWith [cr, nl] ls) = ls := by
  intro ls
  induction ls with
  | nil => intro h hl; rfl
  | cons l ls ih =>
    intro h hl
    cases ls with
    | nil =>
      rw [joinWith]
      have hne : l ≠ [] := by
        intro he
        apply hl
        rw [he]
        rfl
      exact splitlines_single l (h l (List.mem_cons_self l [])) hne
    | cons l2 ls2 =>
      rw [joinWith, List.append_assoc]
      rw [show ([cr, nl] : List Char) ++ joinWith [cr, nl] (l2 :: ls2) =
        cr :: nl :: joinWith [cr, nl] (l2 :: ls2) from rfl]
      rw [splitlines_append_crlf l _ (h l (List.mem_cons_self l (l2 :: ls2)))]
      rw [ih (fun x hx => h x (List.mem_cons_of_mem l hx))
        (by rw [ List.getLast?_cons_cons] at hl; exact hl)]

/-- Claim C8: the output of strip_js never contains a carriage return, so
line separators in the output are newline-only; and on an input built by
joining linebreak-free lines with carriage-return and newline pairs (no
empty last line, no block-comment opener) strip_js produces exactly the
scanned lines joined with single newlines. -/
theorem claim_C8 :
    (∀ content, cr ∉ strip_js content)
    ∧ (∀ ls : List (List Char),
        (∀ l ∈ ls, ∀ c ∈ l, isLineBreak c = false) →
        ls.getLast? ≠ some [] →
        ¬ (slashStar <:+: joinWith [cr, nl] ls) →
        strip_js (joinWith [cr, nl] ls) = joinWith [nl] (ls.map scanLine)) := by
  constructor
  · intro content hmem
    rw [strip_js] at hmem
    rcases joinWith_mem [nl] _ cr hmem with h | ⟨l', hl', hc'⟩
    · simp at h
      exact absurd h (by decide)
    · rcases List.mem_map.mp hl' with ⟨l, hl, heq⟩
      rw [← heq, scanLine] at hc'
      rcases scanLineAux_mem l initSt cr hc' with h | h
      · simp [initSt] at h
      · exact absurd (splitlines_no_linebreak _ l hl cr h) (by decide)
  · intro ls h1 h2 h3
    rw [strip_js, stripDelim_no_open _ _ _ h3, splitlines_joinWith_crlf ls h1 h2]

/-- claim_C8 has hypotheses; this instantiates the join equation at two
concrete one-character lines. -/
theorem claim_C8_witness :
    strip_js (joinWith [cr, nl] [['a'], ['b']]) =
      joinWith [nl] ([['a'], ['b']].map scanLine) :=
  claim_C8.2 [['a'], ['b']] (by decide) (by decide) (by decide)

/-! Length accounting: strip_js strictly shortens every newline-terminated
input, because splitlines drops the final terminator and the newline join
re-inserts one separator fewer than the number of lines. -/

def sumLens (ls : List (List Char)) : Nat := (ls.map List.length).sum

theorem sumLens_nil : sumLens [] = 0 := rfl

theorem sumLens_cons (l : List Char) (ls : List (List Char)) :
    sumLens (l :: ls) = l.length + sumLens ls := by
  simp [sumLens]

theorem scanLineAux_length :
    ∀ cs st, (scanLineAux st cs).length ≤ st.result_chars.length + cs.length := by
  intro cs
  induction cs with
  | nil =>
    intro st
    rw [scanLineAux]
    simp
  | cons ch rest ih =>
    intro st
    cases hstep : scanStep st ch rest.head? with
    | cont st2 =>
      rw [scanLineAux, hstep]
      show (scanLineAux st2 rest).length ≤ st.result_chars.length + (ch :: rest).length
      have h1 := ih st2
      rw [scanStep_result_chars st ch _ st2 hstep] at h1
      simp only [List.length_append, List.length_cons, List.length_nil] at h1 ⊢
      omega
    | brk =>
      rw [scanLineAux, hstep]
      show st.result_chars.length ≤ st.result_chars.length + (ch :: rest).length
      omega

theorem joinWith_nl_length :
    ∀ ls : List (List Char), ls ≠ [] →
      (joinWith [nl] ls).length + 1 = sumLens ls + ls.length := by
  intro ls
  induction ls with
  | nil => intro h; exact absurd rfl h
  | cons l ls ih =>
    intro h
    cases ls with
    | nil => simp [joinWith, sumLens]
    | cons l2 ls2 =>
      have h2 := ih (by simp)
      rw [joinWith]
      simp only [List.length_append, List.length_cons, List.length_nil, sumLens,
        List.map_cons, List.sum_cons] at h2 ⊢
      omega

theorem splitlines_length_bound :
    ∀ s : List Char, sumLens (splitlines s) + (splitlines s).length ≤ s.length + 1
      ∧ (s.getLast? = some nl →
        sumLens (splitlines s) + (splitlines s).length ≤ s.length) := by
  intro s
  induction s using splitlines.induct with
  | case1 =>
    constructor
    · simp [splitlines, sumLens]
    · intro hg
      simp at hg
  | case2 c hc =>
    have he : splitlines [c] = [[]] := by rw [splitlines, if_pos hc]
    constructor
    · rw [he]
      simp [sumLens]
    · intro hg
      rw [he]
      simp [sumLens]
  | case3 c hc =>
    have he : splitlines [c] = [[c]] := by rw [splitlines, if_neg hc]
    constructor
    · rw [he]
      simp [sumLens]
    · intro hg
      simp at hg
      rw [hg] at hc
      exact absurd (by decide : isLineBreak nl = true) hc
  | case4 c c2 rest hc hcr ih =>
    have he : splitlines (c :: c2 :: rest) = [] :: splitlines rest := by
      rw [splitlines, if_pos hc, if_pos hcr]
    constructor
    · rw [he]
      have h1 := ih.1
      simp only [sumLens_cons, sumLens_nil, List.length_cons, List.length_nil] at h1 ⊢
      omega
    · intro hg
      rw [he]
      cases rest with
      | nil => simp [splitlines, sumLens]
      | cons d r2 =>
        rw [ List.getLast?_cons_cons, List.getLast?_cons_cons] at hg
        have h1 := ih.2 hg
        simp only [sumLens_cons, sumLens_nil, List.length_cons, List.length_nil] at h1 ⊢
        omega
  | case5 c c2 rest hc hcr ih =>
    have he : splitlines (c :: c2 :: rest) = [] :: splitlines (c2 :: rest) := by
      rw [splitlines, if_pos hc, if_neg hcr]
    constructor
    · rw [he]
      have h1 := ih.1
      simp only [sumLens_cons, sumLens_nil, List.length_cons, List.length_nil] at h1 ⊢
      omega
    · intro hg
      rw [he]
      rw [ List.getLast?_cons_cons] at hg
      have h1 := ih.2 hg
      simp only [sumLens_cons, sumLens_nil, List.length_cons, List.length_nil] at h1 ⊢
      omega
  | case6 c c2 rest hc hnil ih =>
    exact absurd hnil (splitlines_ne_nil (c2 :: rest) (by simp))
  | case7 c c2 rest hc l0 ls0 heq ih =>
    have he : splitlines (c :: c2 :: rest) = (c :: l0) :: ls0 := by
      rw [splitlines, if_neg hc, heq]
    constructor
    · have h1 := ih.1
      rw [heq] at h1
      rw [he]
      simp only [sumLens_cons, sumLens_nil, List.length_cons, List.length_nil] at h1 ⊢
      omega
    · intro hg
      rw [ List.getLast?_cons_cons] at hg
      have h1 := ih.2 hg
      rw [heq] at h1
      rw [he]
      simp only [sumLens_cons, sumLens_nil, List.length_cons, List.length_nil] at h1 ⊢
      omega

theorem findRemove_length (cls : List Char) :
    ∀ s suf, findRemove cls s = some suf → suf.length + cls.length ≤ s.length := by
  intro s
  induction s with
  | nil => intro suf h; simp [findRemove] at h
  | cons x rest ih =>
    intro suf h
    rw [findRemove] at h
    split_ifs at h with hp
    · cases h
      have hle := List.IsPrefix.length_le ( List.isPrefixOf_iff_prefix.mp hp)
      rw [List.length_drop]
      omega
    · have h1 := ih suf h
      simp only [List.length_cons]
      omega

theorem stripDelimFuel_eq_or_lt (opn cls : List Char) (hcls : cls ≠ []) :
    ∀ fuel s, stripDelimFuel opn cls fuel s = s ∨
      (stripDelimFuel opn cls fuel s).length < s.length := by
  intro fuel
  induction fuel with
  | zero => intro s; cases s <;> exact Or.inl rfl
  | succ fuel ih =>
    intro s
    cases s with
    | nil => exact Or.inl rfl
    | cons x rest =>
      rw [stripDelimFuel]
      split_ifs with hp
      · cases hfr : findRemove cls (List.drop opn.length (x :: rest)) with
        | some suf =>
          right
          show (stripDelimFuel opn cls fuel suf).length < (x :: rest).length
          have h1 := findRemove_length cls _ suf hfr
          have h3 : (List.drop opn.length (x :: rest)).length ≤ (x :: rest).length := by
            rw [List.length_drop]
            omega
          have h4 : 1 ≤ cls.length := by
            cases cls with
            | nil => exact absurd rfl hcls
            | cons a b => simp
          rcases ih suf with h5 | h5
          · rw [h5]
            omega
          · omega
        | none => exact Or.inl rfl
      · rcases ih rest with h5 | h5
        · rw [h5]
          exact Or.inl rfl
        · right
          show (x :: stripDelimFuel opn cls fuel rest).length < (x :: rest).length
          simp only [List.length_cons]
          omega

theorem phase2_length (y : List Char) :
    (joinWith [nl] ((splitlines y).map scanLine)).length ≤ y.length
      ∧ (y.getLast? = some nl →
        (joinWith [nl] ((splitlines y).map scanLine)).length < y.length) := by
  cases hy : splitlines y with
  | nil =>
    have hynil : y = [] := by
      by_contra hne
      exact splitlines_ne_nil y hne hy
    subst hynil
    constructor
    · simp [splitlines, joinWith]
    · intro hg
      simp at hg
  | cons l0 ls0 =>
    have hsum : sumLens ((l0 :: ls0).map scanLine) ≤ sumLens (l0 :: ls0) := by
      simp only [sumLens, List.map_map]
      apply List.sum_le_sum
      intro l hl
      show (scanLine l).length ≤ l.length
      have h1 := scanLineAux_length l initSt
      simpa [initSt, scanLine] using h1
    have hj := joinWith_nl_length ((l0 :: ls0).map scanLine) (by simp)
    have hb := splitlines_length_bound y
    rw [hy] at hb
    have hlen : ((l0 :: ls0).map scanLine).length = (l0 :: ls0).length := by simp
    constructor
    · have h1 := hb.1
      omega
    · intro hg
      have h1 := hb.2 hg
      omega

theorem strip_js_length_lt (t : List Char) (h : t.getLast? = some nl) :
    (strip_js t).length < t.length := by
  rw [strip_js]
  rcases stripDelimFuel_eq_or_lt slashStar starSlash (by decide) t.length t with he | hlt
  · rw [show stripDelim slashStar starSlash t = t from he]
    exact (phase2_length t).2 h
  · have hle := (phase2_length (stripDelim slashStar starSlash t)).1
    have h2 : (stripDelim slashStar starSlash t).length < t.length := hlt
    omega

/-- Claim C10: for every input ending in a newline character, strip_js drops
the terminator (splitlines treats it as a terminator and the newline join
never restores it), so the output differs from the input — in fact it is
strictly shorter — and process_file rewrites such a .js file and reports it
modified. -/
theorem claim_C10 (t : List Char) (h : t.getLast? = some nl) :
    strip_js t ≠ t ∧
    process_file ".js" (ReadRes.ok t) = (some (strip_js t), true) := by
  have hlt := strip_js_length_lt t h
  have hne : strip_js t ≠ t := by
    intro he
    rw [he] at hlt
    omega
  exact ⟨hne, by simp [process_file, strLower, hne]⟩

/-- claim_C10 has a hypothesis; this instantiates it at a newline-terminated
two-character text. -/
theorem claim_C10_witness :
    strip_js (['a', nl]) ≠ ['a', nl]
    ∧ process_file ".js" (ReadRes.ok (['a', nl])) =
        (some (strip_js (['a', nl])), true) :=
  claim_C10 ['a', nl] (by decide)

end StripComments
